import Mathlib

/-!
Verification development for the codebase-extractor repository.

The extraction engine is shallowly embedded: filesystem paths become lists
of path segments (`PathParts`, mirroring Python `Path.parts` below the
traversal root), the selection canonicalization of `main_logic.main`
(lines 144-151) becomes a fold over a depth-sorted list, the TUI session
(`tui.ExtractionSession`) becomes a structure with the same fields and
defaults, and the batch loop of `tui.CodebaseExtractorApp._execute_extraction`
becomes a fold over the unit list with an oracle supplying each unit's
extraction result.  The `file_handler` module is not part of the sources;
where a claim depends on it, the walker is modelled from the spec and
marked as such in its doc comment.
-/

/-! ## Configuration constants (src/codebase_extractor/config.py) -/

/-- Default output directory name (config.py line 9). -/
def OUTPUT_DIR_NAME : String := "CODEBASE_EXTRACTS"

/-- Directory names excluded from traversal (config.py lines 12-21; the
duplicated ".dart_tool" entry collapses by set semantics). -/
def EXCLUDED_DIRS : List String :=
  ["node_modules", "vendor", "__pycache__", "dist", "build", "target", ".next",
   ".git", ".svn", ".hg", ".vscode", ".idea", "venv", ".venv", ".dart_tool",
   ".gradle", "Pods", "DerivedData"]

/-- Filenames excluded regardless of extension (config.py lines 22-24). -/
def EXCLUDED_FILENAMES : List String :=
  ["package-lock.json", "yarn.lock", "composer.lock", ".env", "Podfile.lock"]

/-- Extension-less filenames that qualify for extraction (config.py lines 25-30). -/
def ALLOWED_FILENAMES : List String :=
  ["dockerfile", ".gitignore", ".htaccess", "makefile", ".dockerignore", ".env.example",
   "podfile", "gemfile", "jenkinsfile", "gradlew"]

/-- Extensions that qualify a file for extraction (config.py lines 31-49). -/
def ALLOWED_EXTENSIONS : List String :=
  [".php", ".html", ".css", ".js", ".jsx", ".ts", ".tsx", ".vue", ".svelte",
   ".py", ".rb", ".java", ".c", ".cpp", ".cs", ".go", ".rs", ".json", ".xml",
   ".yaml", ".yml", ".toml", ".ini", ".conf", ".md", ".txt", ".rst", ".twig",
   ".blade", ".handlebars", ".mustache", ".ejs", ".sql", ".graphql", ".gql", ".tf",
   ".dart", ".arb", ".gradle", ".properties", ".plist", ".xcconfig", ".sh", ".bat"]

/-! ## Paths

A filesystem path is embedded as its list of segments (Python `Path.parts`).
`p.is_relative_to(q)` on resolved absolute paths holds exactly when the
segments of `q` form a prefix of the segments of `p`. -/

abbrev PathParts := List String

/-- Embedding of Python `Path.is_relative_to`: `q` covers `p` when the
segments of `q` are a prefix of the segments of `p` (equality included). -/
def is_relative_to (p q : PathParts) : Bool := q.isPrefixOf p

theorem is_relative_to_iff {p q : PathParts} :
    is_relative_to p q = true ↔ q <+: p := by
  unfold is_relative_to
  exact List.isPrefixOf_iff_prefix

theorem pparts_comparable {p q s : PathParts} (h₁ : p <+: s) (h₂ : q <+: s) :
    p <+: q ∨ q <+: p := by
  exact List.prefix_or_prefix_of_prefix h₁ h₂

theorem pparts_eq_of_len {p q : PathParts} (h : p <+: q)
    (hlen : q.length ≤ p.length) : p = q := by
  exact h.eq_of_length (Nat.le_antisymm h.length_le hlen)

/-! ## PathSetCanonicalizer (src/codebase_extractor/main_logic.py lines 144-151)

`sorted_paths = sorted(selected_paths, key=lambda p: len(p.parts))` followed by
the accumulator loop that accepts a candidate only if it is not relative to an
already-accepted parent. -/

/-- Comparison used by `sorted(selected_paths, key=lambda p: len(p.parts))`. -/
def depth_le (a b : PathParts) : Prop := a.length ≤ b.length

instance : DecidableRel depth_le := fun a b => Nat.decLe a.length b.length

instance : IsTotal PathParts depth_le := ⟨fun a b => Nat.le_total a.length b.length⟩

instance : IsTrans PathParts depth_le := ⟨fun _ _ _ h₁ h₂ => Nat.le_trans h₁ h₂⟩

/-- Embedding of `sorted(selected_paths, key=lambda p: len(p.parts))`
(main_logic.py line 145); insertion sort is a stable sort like Python's. -/
def sorted_paths (selected_paths : List PathParts) : List PathParts :=
  List.insertionSort depth_le selected_paths

/-- Loop body of main_logic.py lines 148-150: a candidate is added to
`final_paths` only if it is not relative to any already-accepted parent. -/
def accept_step (final : List PathParts) (path : PathParts) : List PathParts :=
  if final.any (fun parent => is_relative_to path parent) then final
  else final ++ [path]

/-- Embedding of the canonicalization of main_logic.py lines 144-151:
depth-ascending processing with descendant dropping. -/
def final_paths (selected_paths : List PathParts) : List PathParts :=
  (sorted_paths selected_paths).foldl accept_step []

/-- A list of paths is an antichain when no element is a proper prefix
(ancestor) of another: prefix implies equality. -/
def PAntichain (l : List PathParts) : Prop :=
  ∀ p ∈ l, ∀ q ∈ l, p <+: q → p = q

theorem accept_step_grows (final : List PathParts) (path : PathParts) :
    final <+: accept_step final path := by
  unfold accept_step
  split
  · exact List.prefix_refl final
  · exact ⟨[path], rfl⟩

theorem foldl_accept_grows (l : List PathParts) (final : List PathParts) :
    final <+: List.foldl accept_step final l := by
  induction l generalizing final with
  | nil => exact List.prefix_refl final
  | cons p l ih =>
    exact (accept_step_grows final p).trans (ih (accept_step final p))

theorem mem_foldl_accept {q : PathParts} (l : List PathParts)
    (final : List PathParts) (hq : q ∈ final) :
    q ∈ List.foldl accept_step final l :=
  (foldl_accept_grows l final).subset hq

theorem accept_step_none {final : List PathParts} {path : PathParts}
    (h : final.any (fun parent => is_relative_to path parent) = false) :
    ∀ q ∈ final, ¬ q <+: path := by
  intro q hq hpre
  have := List.any_eq_false.mp h q hq
  rw [is_relative_to_iff] at this
  exact this hpre

theorem final_antichain_aux (l : List PathParts) (final : List PathParts)
    (hsort : List.Pairwise depth_le l)
    (hacc : PAntichain final)
    (hlen : ∀ q ∈ final, ∀ p ∈ l, q.length ≤ p.length) :
    PAntichain (List.foldl accept_step final l) := by
  induction l generalizing final with
  | nil => exact hacc
  | cons p l ih =>
    have hsort' := hsort.tail
    have hp_le : ∀ b ∈ l, p.length ≤ b.length := by
      intro b hb
      exact List.rel_of_pairwise_cons hsort hb
    simp only [List.foldl_cons]
    by_cases hany : final.any (fun parent => is_relative_to p parent) = true
    · have hstep : accept_step final p = final := by
        unfold accept_step
        simp [hany]
      rw [hstep]
      refine ih final hsort' hacc ?_
      intro q hq b hb
      exact hlen q hq b (List.mem_cons_of_mem p hb)
    · have hany' : final.any (fun parent => is_relative_to p parent) = false :=
        Bool.eq_false_iff.mpr hany
      have hstep : accept_step final p = final ++ [p] := by
        unfold accept_step
        simp [hany']
      rw [hstep]
      have hnone := accept_step_none hany'
      refine ih (final ++ [p]) hsort' ?_ ?_
      · intro x hx y hy hxy
        rcases List.mem_append.mp hx with hx1 | hx1
        · rcases List.mem_append.mp hy with hy1 | hy1
          · exact hacc x hx1 y hy1 hxy
          · have hyp : y = p := List.mem_singleton.mp hy1
            rw [hyp] at hxy
            exact absurd hxy (hnone x hx1)
        · have hxp : x = p := List.mem_singleton.mp hx1
          rcases List.mem_append.mp hy with hy1 | hy1
          · have hylen : y.length ≤ x.length := by
              rw [hxp]
              exact hlen y hy1 p (List.mem_cons_self p l)
            exact pparts_eq_of_len hxy hylen
          · rw [hxp]
            exact (List.mem_singleton.mp hy1).symm
      · intro q hq b hb
        rcases List.mem_append.mp hq with hq | hq
        · exact hlen q hq b (List.mem_cons_of_mem p hb)
        · have hqp : q = p := List.mem_singleton.mp hq
          subst hqp
          exact hp_le b hb

theorem final_covers_aux (l : List PathParts) (final : List PathParts) :
    ∀ s ∈ l, ∃ o ∈ List.foldl accept_step final l, o <+: s := by
  induction l generalizing final with
  | nil => intro s hs; exact absurd hs (List.not_mem_nil s)
  | cons p l ih =>
    intro s hs
    simp only [List.foldl_cons]
    rcases List.mem_cons.mp hs with hsp | hsl
    · subst hsp
      by_cases hany : final.any (fun parent => is_relative_to s parent) = true
      · obtain ⟨q, hq, hqpre⟩ := List.any_eq_true.mp hany
        rw [is_relative_to_iff] at hqpre
        have hstep : accept_step final s = final := by
          unfold accept_step
          simp [hany]
        refine ⟨q, ?_, hqpre⟩
        rw [hstep]
        exact mem_foldl_accept l final hq
      · have hany' : final.any (fun parent => is_relative_to s parent) = false :=
          Bool.eq_false_iff.mpr hany
        have hstep : accept_step final s = final ++ [s] := by
          unfold accept_step
          simp [hany']
        refine ⟨s, ?_, List.prefix_refl s⟩
        rw [hstep]
        exact mem_foldl_accept l (final ++ [s])
          (List.mem_append.mpr (Or.inr (List.mem_singleton_self s)))
    · exact ih (accept_step final p) s hsl

theorem final_paths_antichain (selected_paths : List PathParts) :
    PAntichain (final_paths selected_paths) := by
  unfold final_paths
  refine final_antichain_aux _ [] ?_ ?_ ?_
  · exact List.sorted_insertionSort depth_le selected_paths
  · intro p hp
    exact absurd hp (List.not_mem_nil p)
  · intro q hq
    exact absurd hq (List.not_mem_nil q)

theorem final_paths_covers (selected_paths : List PathParts) :
    ∀ s ∈ selected_paths, ∃ o ∈ final_paths selected_paths, o <+: s := by
  intro s hs
  have hs' : s ∈ sorted_paths selected_paths :=
    (List.perm_insertionSort depth_le selected_paths).symm.subset hs
  exact final_covers_aux (sorted_paths selected_paths) [] s hs'

/-- Claim C1: the canonicalization of main_logic.py lines 144-151 (sort
selections by ascending segment count, accept a candidate only if it is not
a descendant of an already-accepted path) produces a set in which no output
path is a descendant of another output path, and every input path is equal
to or a descendant of exactly one output path. -/
theorem canonicalization_minimal_cover (selected_paths : List PathParts) :
    (∀ p ∈ final_paths selected_paths, ∀ q ∈ final_paths selected_paths,
      q <+: p → q = p) ∧
    (∀ s ∈ selected_paths,
      ∃! o, o ∈ final_paths selected_paths ∧ o <+: s) := by
  constructor
  · intro p hp q hq hqp
    exact final_paths_antichain selected_paths q hq p hp hqp
  · intro s hs
    obtain ⟨o, ho, hos⟩ := final_paths_covers selected_paths s hs
    refine ⟨o, ⟨ho, hos⟩, ?_⟩
    intro o' ⟨ho', hos'⟩
    rcases pparts_comparable hos' hos with h | h
    · exact final_paths_antichain selected_paths o' ho' o ho h
    · exact (final_paths_antichain selected_paths o ho o' ho' h).symm

/-- Witness for C1 at the spec's own example `{"/a", "/a/b", "/c"}`. -/
theorem canonicalization_minimal_cover_witness :
    ∃! o, o ∈ final_paths [["a"], ["a", "b"], ["c"]] ∧ o <+: ["a", "b"] :=
  (canonicalization_minimal_cover [["a"], ["a", "b"], ["c"]]).2
    ["a", "b"] (by decide)

/-! ## Lexicographic path order

Python's `sorted(list_of_paths)` compares `Path` values segment by segment,
each segment by its character code points.  Both comparisons are embedded
executably (the built-in `String` order does not reduce in the kernel). -/

/-- Code-point comparison of two strings given as character lists,
embedding Python string `<`. -/
def str_ltb : List Char → List Char → Bool
  | _, [] => false
  | [], _ :: _ => true
  | a :: as, b :: bs => if a = b then str_ltb as bs else decide (a < b)

/-- Lexicographic comparison of path segment lists, embedding Python
`Path` ordering (non-strict). -/
def path_le : PathParts → PathParts → Bool
  | [], _ => true
  | _ :: _, [] => false
  | a :: as, b :: bs => if a = b then path_le as bs else str_ltb a.data b.data

theorem str_ltb_irrefl (a : List Char) : str_ltb a a = false := by
  induction a with
  | nil => rfl
  | cons c cs ih => simp [str_ltb, ih]

theorem str_ltb_trans {a b c : List Char} (h₁ : str_ltb a b = true)
    (h₂ : str_ltb b c = true) : str_ltb a c = true := by
  induction c generalizing a b with
  | nil => cases b <;> simp [str_ltb] at h₂
  | cons z zs ih =>
    cases a with
    | nil => rfl
    | cons x xs =>
      cases b with
      | nil => simp [str_ltb] at h₁
      | cons y ys =>
        simp only [str_ltb] at h₁ h₂ ⊢
        by_cases hxy : x = y
        · subst hxy
          simp only [if_pos rfl] at h₁
          by_cases hyz : x = z
          · subst hyz
            simp only [if_pos rfl] at h₂ ⊢
            exact ih h₁ h₂
          · simp only [if_neg hyz] at h₂ ⊢
            exact h₂
        · simp only [if_neg hxy] at h₁
          by_cases hyz : y = z
          · subst hyz
            simp only [if_neg hxy]
            exact h₁
          · simp only [if_neg hyz] at h₂
            have hxz : x < z := lt_trans (of_decide_eq_true h₁) (of_decide_eq_true h₂)
            simp [ne_of_lt hxz, hxz]

theorem str_ltb_total {a b : List Char} (hne : a ≠ b) :
    str_ltb a b = true ∨ str_ltb b a = true := by
  induction a generalizing b with
  | nil =>
    cases b with
    | nil => exact absurd rfl hne
    | cons y ys => left; rfl
  | cons x xs ih =>
    cases b with
    | nil => right; rfl
    | cons y ys =>
      by_cases hxy : x = y
      · subst hxy
        have hne' : xs ≠ ys := by
          intro h
          exact hne (by rw [h])
        rcases ih hne' with h | h
        · left; simp [str_ltb, h]
        · right; simp [str_ltb, h]
      · rcases lt_or_gt_of_ne hxy with h | h
        · left; simp [str_ltb, hxy, h]
        · right
          have hyx : y ≠ x := fun hh => hxy hh.symm
          simp [str_ltb, hyx, h]

theorem str_data_inj {a b : String} (h : a.data = b.data) : a = b := by
  cases a
  cases b
  exact congrArg String.mk h

theorem path_le_refl (p : PathParts) : path_le p p = true := by
  induction p with
  | nil => rfl
  | cons a as ih => simp [path_le, ih]

theorem path_le_total (p q : PathParts) :
    path_le p q = true ∨ path_le q p = true := by
  induction p generalizing q with
  | nil => left; rfl
  | cons a as ih =>
    cases q with
    | nil => right; rfl
    | cons b bs =>
      by_cases hab : a = b
      · subst hab
        rcases ih bs with h | h
        · left; simp [path_le, h]
        · right; simp [path_le, h]
      · have hdata : a.data ≠ b.data := fun hh => hab (str_data_inj hh)
        rcases str_ltb_total hdata with h | h
        · left; simp [path_le, hab, h]
        · right
          have hba : b ≠ a := fun hh => hab hh.symm
          simp [path_le, hba, h]

theorem str_ltb_asymm {a b : List Char} (h₁ : str_ltb a b = true)
    (h₂ : str_ltb b a = true) : False := by
  have := str_ltb_trans h₁ h₂
  rw [str_ltb_irrefl a] at this
  exact Bool.false_ne_true this

theorem path_le_trans {p q r : PathParts} (h₁ : path_le p q = true)
    (h₂ : path_le q r = true) : path_le p r = true := by
  induction r generalizing p q with
  | nil =>
    cases p with
    | nil => rfl
    | cons a as =>
      cases q with
      | nil => simp [path_le] at h₁
      | cons b bs => simp [path_le] at h₂
  | cons c cs ih =>
    cases p with
    | nil => rfl
    | cons a as =>
      cases q with
      | nil => simp [path_le] at h₁
      | cons b bs =>
        simp only [path_le] at h₁ h₂ ⊢
        by_cases hab : a = b
        · subst hab
          simp only [if_pos rfl] at h₁
          by_cases hbc : a = c
          · subst hbc
            simp only [if_pos rfl] at h₂ ⊢
            exact ih h₁ h₂
          · simp only [if_neg hbc] at h₂ ⊢
            exact h₂
        · simp only [if_neg hab] at h₁
          by_cases hbc : b = c
          · subst hbc
            simp only [if_neg hab]
            exact h₁
          · simp only [if_neg hbc] at h₂
            by_cases hac : a = c
            · subst hac
              exact absurd (str_ltb_trans h₁ h₂) (by simp [str_ltb_irrefl])
            · simp only [if_neg hac]
              exact str_ltb_trans h₁ h₂

/-- Relation form of `path_le`, used for sorting the unit list. -/
def path_le_rel (p q : PathParts) : Prop := path_le p q = true

instance : DecidableRel path_le_rel := fun p q => instDecidableEqBool (path_le p q) true

instance : IsTotal PathParts path_le_rel := ⟨path_le_total⟩

instance : IsTrans PathParts path_le_rel := ⟨fun _ _ _ => path_le_trans⟩

/-- Embedding of `sorted(list(folders))` over paths (tui.py line 786,
main_logic.py line 156): Python sorts `Path` values lexicographically. -/
def sorted_folder_list (folders : List PathParts) : List PathParts :=
  List.insertionSort path_le_rel folders

/-! ## ExtractionSession (src/codebase_extractor/tui.py lines 34-92)

The dataclass holding the run configuration, with the same fields and
defaults.  Python's `float` size limit is embedded as a rational, and the
(unbounded) `int` progress counter as an integer. -/

structure ExtractionSession where
  exclude_large_files : Bool := false
  max_file_size_mb : ℚ := 1
  output_dir_name : String := OUTPUT_DIR_NAME
  dry_run : Bool := false
  selected_folders : List PathParts := []
  include_root_files : Bool := false
  completed_units : ℤ := 0
  excluded_dirs : List String :=
    ["node_modules", "vendor", "__pycache__", "dist", "build", "target", ".next",
     ".git", ".svn", ".hg", ".vscode", ".idea", "venv", ".venv", ".dart_tool",
     ".gradle", "Pods", "DerivedData"]
  excluded_filenames : List String :=
    ["package-lock.json", "yarn.lock", "composer.lock", ".env", "Podfile.lock"]
  allowed_extensions : List String := ALLOWED_EXTENSIONS
  allowed_filenames : List String := ALLOWED_FILENAMES

/-- Total number of extraction units: folders plus one for the optional
root unit (tui.py lines 69-72). -/
def ExtractionSession.total_units (s : ExtractionSession) : ℕ :=
  s.selected_folders.length + (if s.include_root_files then 1 else 0)

/-- Embedding of the `completed_units` property setter (tui.py lines 79-82):
the stored value is clamped to `min(value, total_units)`. -/
def ExtractionSession.set_completed_units (s : ExtractionSession) (value : ℤ) :
    ExtractionSession :=
  { s with completed_units := min value (s.total_units : ℤ) }

/-- The updates the program applies to the progress counter: the
`completed_units += 1` steps of `_execute_extraction` (tui.py lines 828, 869),
which go through the clamping setter, and the reset
`self.session._completed_units = 0` at run start (tui.py line 767). -/
inductive ProgressUpdate where
  | increment
  | reset
deriving DecidableEq

def apply_progress_update (s : ExtractionSession) : ProgressUpdate → ExtractionSession
  | ProgressUpdate.increment => s.set_completed_units (s.completed_units + 1)
  | ProgressUpdate.reset => { s with completed_units := 0 }

def apply_progress_updates (s : ExtractionSession) (us : List ProgressUpdate) :
    ExtractionSession :=
  us.foldl apply_progress_update s

theorem apply_progress_update_total (s : ExtractionSession) (u : ProgressUpdate) :
    (apply_progress_update s u).total_units = s.total_units := by
  cases u <;> rfl

/-- Claim C3: for every sequence of progress updates,
`0 ≤ completed_units ≤ total_units` holds at all times; in particular the
counter never exceeds the total even when incremented more often than there
are units. -/
theorem completed_units_always_bounded (s : ExtractionSession)
    (us : List ProgressUpdate)
    (h0 : 0 ≤ s.completed_units)
    (h1 : s.completed_units ≤ (s.total_units : ℤ)) :
    0 ≤ (apply_progress_updates s us).completed_units ∧
    (apply_progress_updates s us).completed_units
      ≤ ((apply_progress_updates s us).total_units : ℤ) := by
  induction us generalizing s with
  | nil => exact ⟨h0, h1⟩
  | cons u us ih =>
    simp only [apply_progress_updates, List.foldl_cons]
    refine ih (apply_progress_update s u) ?_ ?_
    · cases u with
      | increment =>
        simp only [apply_progress_update, ExtractionSession.set_completed_units]
        have : (0:ℤ) ≤ (s.total_units : ℤ) := Int.natCast_nonneg s.total_units
        omega
      | reset => exact le_refl 0
    · cases u with
      | increment =>
        simp only [apply_progress_update, ExtractionSession.set_completed_units,
          apply_progress_update_total]
        have heq : ({ s with completed_units := min (s.completed_units + 1) (s.total_units : ℤ) } :
            ExtractionSession).total_units = s.total_units := rfl
        rw [heq]
        omega
      | reset =>
        simp only [apply_progress_update]
        have heq : ({ s with completed_units := (0:ℤ) } :
            ExtractionSession).total_units = s.total_units := rfl
        rw [heq]
        exact Int.natCast_nonneg s.total_units

/-- The default session value, all dataclass defaults. -/
def default_session : ExtractionSession := {}

/-- Witness for C3 at a concrete session and update sequence. -/
theorem completed_units_always_bounded_witness :
    0 ≤ (apply_progress_updates default_session
          [ProgressUpdate.increment, ProgressUpdate.increment]).completed_units ∧
    (apply_progress_updates default_session
          [ProgressUpdate.increment, ProgressUpdate.increment]).completed_units
      ≤ ((apply_progress_updates default_session
          [ProgressUpdate.increment, ProgressUpdate.increment]).total_units : ℤ) :=
  completed_units_always_bounded default_session
    [ProgressUpdate.increment, ProgressUpdate.increment] (by decide) (by decide)

/-! ## Extraction units and the batch runner
(src/codebase_extractor/tui.py lines 752-892)

`_execute_extraction` processes the sorted folder list and then, if
requested, the root-files unit.  Each unit's interaction with the
filesystem (`file_handler.extract_code_from_folder` /
`extract_code_from_root`, absent from the sources) is abstracted as an
oracle from units to either an error or a `(file_count, char_count,
word_count)` triple. -/

inductive ExtractionUnit where
  | folder (path : PathParts)
  | rootFiles
deriving DecidableEq

/-- Fixed execution order of tui.py lines 786 and 832: folders in sorted
order first, then the root unit last when requested. -/
def unit_list (s : ExtractionSession) : List ExtractionUnit :=
  (sorted_folder_list s.selected_folders).map ExtractionUnit.folder ++
  (if s.include_root_files then [ExtractionUnit.rootFiles] else [])

/-- Per-unit result as reported by status updates and the run summary:
extracted with counts, no extractable files, or failed with a message. -/
inductive UnitOutcome where
  | extracted (file_count char_count word_count : ℕ)
  | noFiles
  | failed (msg : String)
deriving DecidableEq

structure RunState where
  session : ExtractionSession
  total_files_extracted : ℕ
  files_written : ℕ
  outcomes : List UnitOutcome

/-- One iteration of the unit loop of `_execute_extraction` (tui.py lines
787-829): the `try` block either records an extracted unit (writing its
Markdown file unless `dry_run`), or a unit with no files; the `except`
arm records the failure; the `finally` arm always increments
`completed_units` through the clamping setter. -/
def run_unit (st : RunState) (result : Except String (ℕ × ℕ × ℕ)) : RunState :=
  match result with
  | Except.ok (file_count, char_count, word_count) =>
    if 0 < file_count then
      { session := st.session.set_completed_units (st.session.completed_units + 1)
        total_files_extracted := st.total_files_extracted + file_count
        files_written := st.files_written + (if st.session.dry_run then 0 else 1)
        outcomes := st.outcomes ++ [UnitOutcome.extracted file_count char_count word_count] }
    else
      { session := st.session.set_completed_units (st.session.completed_units + 1)
        total_files_extracted := st.total_files_extracted
        files_written := st.files_written
        outcomes := st.outcomes ++ [UnitOutcome.noFiles] }
  | Except.error e =>
      { session := st.session.set_completed_units (st.session.completed_units + 1)
        total_files_extracted := st.total_files_extracted
        files_written := st.files_written
        outcomes := st.outcomes ++ [UnitOutcome.failed e] }

/-- Embedding of `_execute_extraction` (tui.py lines 752-885): reset the
progress counter, then process every unit in order. -/
def execute_extraction (s : ExtractionSession)
    (extract : ExtractionUnit → Except String (ℕ × ℕ × ℕ)) : RunState :=
  (unit_list s).foldl (fun st u => run_unit st (extract u))
    { session := { s with completed_units := 0 }
      total_files_extracted := 0
      files_written := 0
      outcomes := [] }

/-- The first `k` iterations of the unit loop. -/
def run_take (s : ExtractionSession)
    (extract : ExtractionUnit → Except String (ℕ × ℕ × ℕ)) (k : ℕ) : RunState :=
  ((unit_list s).take k).foldl (fun st u => run_unit st (extract u))
    { session := { s with completed_units := 0 }
      total_files_extracted := 0
      files_written := 0
      outcomes := [] }

/-- Outcome a unit's extraction result is recorded as. -/
def outcome_of : Except String (ℕ × ℕ × ℕ) → UnitOutcome
  | Except.ok (file_count, char_count, word_count) =>
    if 0 < file_count then UnitOutcome.extracted file_count char_count word_count
    else UnitOutcome.noFiles
  | Except.error e => UnitOutcome.failed e

/-- File count a unit's extraction result contributes to the run total. -/
def files_of : Except String (ℕ × ℕ × ℕ) → ℕ
  | Except.ok (file_count, _, _) => file_count
  | Except.error _ => 0

theorem set_completed_units_total (s : ExtractionSession) (v : ℤ) :
    (s.set_completed_units v).total_units = s.total_units := rfl

theorem set_completed_units_dry (s : ExtractionSession) (v : ℤ) :
    (s.set_completed_units v).dry_run = s.dry_run := rfl

theorem set_completed_units_val (s : ExtractionSession) (v : ℤ) :
    (s.set_completed_units v).completed_units = min v (s.total_units : ℤ) := rfl

theorem run_unit_outcomes (st : RunState) (r : Except String (ℕ × ℕ × ℕ)) :
    (run_unit st r).outcomes = st.outcomes ++ [outcome_of r] := by
  cases r with
  | ok v =>
    obtain ⟨fc, cc, wc⟩ := v
    by_cases h : 0 < fc <;> simp [run_unit, outcome_of, h]
  | error e => rfl

theorem run_unit_total_files (st : RunState) (r : Except String (ℕ × ℕ × ℕ)) :
    (run_unit st r).total_files_extracted
      = st.total_files_extracted + files_of r := by
  cases r with
  | ok v =>
    obtain ⟨fc, cc, wc⟩ := v
    by_cases h : 0 < fc
    · simp [run_unit, files_of, h]
    · have : fc = 0 := Nat.eq_zero_of_not_pos h
      simp [run_unit, files_of, h, this]
  | error e => simp [run_unit, files_of]

theorem run_unit_session (st : RunState) (r : Except String (ℕ × ℕ × ℕ)) :
    (run_unit st r).session
      = st.session.set_completed_units (st.session.completed_units + 1) := by
  cases r with
  | ok v =>
    obtain ⟨fc, cc, wc⟩ := v
    by_cases h : 0 < fc <;> simp [run_unit, h]
  | error e => rfl

theorem run_unit_writes_dry (st : RunState) (r : Except String (ℕ × ℕ × ℕ))
    (h : st.session.dry_run = true) :
    (run_unit st r).files_written = st.files_written := by
  cases r with
  | ok v =>
    obtain ⟨fc, cc, wc⟩ := v
    by_cases hfc : 0 < fc <;> simp [run_unit, h, hfc]
  | error e => rfl

theorem fold_run_outcomes (extract : ExtractionUnit → Except String (ℕ × ℕ × ℕ))
    (units : List ExtractionUnit) (st : RunState) :
    (units.foldl (fun st u => run_unit st (extract u)) st).outcomes
      = st.outcomes ++ units.map (fun u => outcome_of (extract u)) := by
  induction units generalizing st with
  | nil => simp
  | cons u us ih =>
    simp only [List.foldl_cons, List.map_cons]
    rw [ih (run_unit st (extract u)), run_unit_outcomes]
    simp

theorem fold_run_total_files (extract : ExtractionUnit → Except String (ℕ × ℕ × ℕ))
    (units : List ExtractionUnit) (st : RunState) :
    (units.foldl (fun st u => run_unit st (extract u)) st).total_files_extracted
      = st.total_files_extracted + (units.map (fun u => files_of (extract u))).sum := by
  induction units generalizing st with
  | nil => simp
  | cons u us ih =>
    simp only [List.foldl_cons, List.map_cons, List.sum_cons]
    rw [ih (run_unit st (extract u)), run_unit_total_files]
    omega

theorem fold_run_dry (extract : ExtractionUnit → Except String (ℕ × ℕ × ℕ))
    (units : List ExtractionUnit) (st : RunState) :
    (units.foldl (fun st u => run_unit st (extract u)) st).session.dry_run
      = st.session.dry_run := by
  induction units generalizing st with
  | nil => rfl
  | cons u us ih =>
    simp only [List.foldl_cons]
    rw [ih (run_unit st (extract u)), run_unit_session, set_completed_units_dry]

theorem fold_run_total_units (extract : ExtractionUnit → Except String (ℕ × ℕ × ℕ))
    (units : List ExtractionUnit) (st : RunState) :
    (units.foldl (fun st u => run_unit st (extract u)) st).session.total_units
      = st.session.total_units := by
  induction units generalizing st with
  | nil => rfl
  | cons u us ih =>
    simp only [List.foldl_cons]
    rw [ih (run_unit st (extract u)), run_unit_session, set_completed_units_total]

theorem fold_run_completed (extract : ExtractionUnit → Except String (ℕ × ℕ × ℕ))
    (units : List ExtractionUnit) (st : RunState)
    (h : st.session.completed_units ≤ (st.session.total_units : ℤ)) :
    (units.foldl (fun st u => run_unit st (extract u)) st).session.completed_units
      = min (st.session.completed_units + units.length) (st.session.total_units : ℤ) := by
  induction units generalizing st with
  | nil =>
    simp only [List.foldl_nil, List.length_nil, Nat.cast_zero, Int.natCast_zero]
    omega
  | cons u us ih =>
    simp only [List.foldl_cons, List.length_cons]
    have hs := run_unit_session st (extract u)
    have h' : (run_unit st (extract u)).session.completed_units
        ≤ ((run_unit st (extract u)).session.total_units : ℤ) := by
      rw [hs, set_completed_units_val, set_completed_units_total]
      exact min_le_right _ _
    rw [ih (run_unit st (extract u)) h']
    rw [hs, set_completed_units_val, set_completed_units_total]
    omega

theorem fold_run_writes_dry (extract : ExtractionUnit → Except String (ℕ × ℕ × ℕ))
    (units : List ExtractionUnit) (st : RunState)
    (h : st.session.dry_run = true) :
    (units.foldl (fun st u => run_unit st (extract u)) st).files_written
      = st.files_written := by
  induction units generalizing st with
  | nil => rfl
  | cons u us ih =>
    simp only [List.foldl_cons]
    have hdry : (run_unit st (extract u)).session.dry_run = true := by
      rw [run_unit_session, set_completed_units_dry]
      exact h
    rw [ih (run_unit st (extract u)) hdry, run_unit_writes_dry st (extract u) h]

theorem unit_list_length (s : ExtractionSession) :
    (unit_list s).length = s.total_units := by
  unfold unit_list ExtractionSession.total_units sorted_folder_list
  by_cases h : s.include_root_files <;>
    simp [h, List.length_insertionSort]

/-- Claim C2: a unit whose extraction raises is caught at the unit boundary
(tui.py lines 822-829): every unit in the batch still gets an outcome
recorded in order (so subsequent units are processed), the failing unit's
outcome is `failed`, and `completed_units` still reaches the total. -/
theorem session_reset_total_units (s : ExtractionSession) :
    ({ s with completed_units := (0:ℤ) } : ExtractionSession).total_units
      = s.total_units := rfl

theorem unit_failure_does_not_abort (s : ExtractionSession)
    (extract : ExtractionUnit → Except String (ℕ × ℕ × ℕ))
    (i : ℕ) (msg : String) (hi : i < (unit_list s).length)
    (herr : extract ((unit_list s)[i]) = Except.error msg) :
    (execute_extraction s extract).outcomes
        = (unit_list s).map (fun u => outcome_of (extract u)) ∧
    (execute_extraction s extract).outcomes[i]?
        = some (UnitOutcome.failed msg) ∧
    (execute_extraction s extract).session.completed_units
        = (s.total_units : ℤ) := by
  have h1 : (execute_extraction s extract).outcomes
      = (unit_list s).map (fun u => outcome_of (extract u)) := by
    simp only [execute_extraction]
    rw [fold_run_outcomes]
    simp
  refine ⟨h1, ?_, ?_⟩
  · rw [h1]
    rw [List.getElem?_map]
    have hsome : (unit_list s)[i]? = some ((unit_list s)[i]) :=
      List.getElem?_eq_getElem hi
    rw [hsome]
    simp [herr, outcome_of]
  · simp only [execute_extraction]
    rw [fold_run_completed]
    · rw [session_reset_total_units, unit_list_length]
      have h0 : (0:ℤ) ≤ (s.total_units : ℤ) := Int.natCast_nonneg s.total_units
      have hc : ({ s with completed_units := (0:ℤ) } :
          ExtractionSession).completed_units = 0 := rfl
      rw [hc]
      omega
    · exact Int.natCast_nonneg _

/-- Session used by the C2 witness: two selected folders, no root unit. -/
def sessionW2 : ExtractionSession := { selected_folders := [["a"], ["b"]] }

/-- Extraction oracle used by the C2 witness: the first folder fails. -/
def extractW2 : ExtractionUnit → Except String (ℕ × ℕ × ℕ)
  | ExtractionUnit.folder p => if p = ["a"] then Except.error "gone" else Except.ok (2, 10, 3)
  | ExtractionUnit.rootFiles => Except.ok (0, 0, 0)

/-- Witness for C2: with the first of two folders failing, both units are
recorded, the failure is reported, and progress still completes. -/
theorem unit_failure_does_not_abort_witness :
    (execute_extraction sessionW2 extractW2).outcomes
        = (unit_list sessionW2).map (fun u => outcome_of (extractW2 u)) ∧
    (execute_extraction sessionW2 extractW2).outcomes[0]?
        = some (UnitOutcome.failed "gone") ∧
    (execute_extraction sessionW2 extractW2).session.completed_units
        = (sessionW2.total_units : ℤ) :=
  unit_failure_does_not_abort sessionW2 extractW2 0 "gone" (by decide) rfl

theorem run_take_completed (s : ExtractionSession)
    (extract : ExtractionUnit → Except String (ℕ × ℕ × ℕ)) (j : ℕ) :
    (run_take s extract j).session.completed_units
      = min (j : ℤ) (s.total_units : ℤ) := by
  simp only [run_take]
  rw [fold_run_completed]
  · have hlen : ((unit_list s).take j).length = min j (unit_list s).length :=
      List.length_take j (unit_list s)
    rw [hlen, unit_list_length, session_reset_total_units]
    have hc : ({ s with completed_units := (0:ℤ) } :
        ExtractionSession).completed_units = 0 := rfl
    rw [hc]
    push_cast
    omega
  · exact Int.natCast_nonneg _

/-- Claim C4: within a run, `completed_units` after `k` attempted units is
exactly `k`, it grows by exactly one per attempted unit regardless of the
unit's result, and it is monotonically non-decreasing. -/
theorem completed_units_once_per_unit (s : ExtractionSession)
    (extract : ExtractionUnit → Except String (ℕ × ℕ × ℕ)) (k : ℕ)
    (hk : k < (unit_list s).length) :
    (run_take s extract k).session.completed_units = (k : ℤ) ∧
    (run_take s extract (k + 1)).session.completed_units
      = (run_take s extract k).session.completed_units + 1 ∧
    (run_take s extract k).session.completed_units
      ≤ (run_take s extract (k + 1)).session.completed_units := by
  rw [unit_list_length] at hk
  rw [run_take_completed, run_take_completed]
  push_cast
  omega

/-- Session used by the C4 witness: one folder plus the root unit. -/
def sessionW4 : ExtractionSession :=
  { selected_folders := [["a"]], include_root_files := true }

/-- Witness for C4 at the first unit of a two-unit batch. -/
theorem completed_units_once_per_unit_witness :
    (run_take sessionW4 (fun _ => Except.ok (1, 2, 3)) 0).session.completed_units
      = ((0:ℕ) : ℤ) ∧
    (run_take sessionW4 (fun _ => Except.ok (1, 2, 3)) (0 + 1)).session.completed_units
      = (run_take sessionW4 (fun _ => Except.ok (1, 2, 3)) 0).session.completed_units + 1 ∧
    (run_take sessionW4 (fun _ => Except.ok (1, 2, 3)) 0).session.completed_units
      ≤ (run_take sessionW4 (fun _ => Except.ok (1, 2, 3)) (0 + 1)).session.completed_units :=
  completed_units_once_per_unit sessionW4 (fun _ => Except.ok (1, 2, 3)) 0 (by decide)

/-- Claim C5: a dry-run batch computes exactly the same statistics (per-unit
outcomes with their file/char/word counts, run totals, progress) as a normal
batch over the same tree, and writes zero output files (tui.py lines
807-811 and 853-857: only the write is guarded by `dry_run`). -/
theorem dry_run_identical_stats (s : ExtractionSession)
    (extract : ExtractionUnit → Except String (ℕ × ℕ × ℕ)) :
    (execute_extraction { s with dry_run := true } extract).total_files_extracted
      = (execute_extraction { s with dry_run := false } extract).total_files_extracted ∧
    (execute_extraction { s with dry_run := true } extract).outcomes
      = (execute_extraction { s with dry_run := false } extract).outcomes ∧
    (execute_extraction { s with dry_run := true } extract).session.completed_units
      = (execute_extraction { s with dry_run := false } extract).session.completed_units ∧
    (execute_extraction { s with dry_run := true } extract).files_written = 0 := by
  refine ⟨?_, ?_, ?_, ?_⟩
  · simp only [execute_extraction]
    rw [fold_run_total_files, fold_run_total_files]
    rfl
  · simp only [execute_extraction]
    rw [fold_run_outcomes, fold_run_outcomes]
    rfl
  · simp only [execute_extraction]
    rw [fold_run_completed, fold_run_completed]
    · rfl
    · exact Int.natCast_nonneg _
    · exact Int.natCast_nonneg _
  · simp only [execute_extraction]
    rw [fold_run_writes_dry]
    rfl

/-- Folder paths appearing in a unit list, in order. -/
def folder_paths_of (units : List ExtractionUnit) : List PathParts :=
  units.filterMap (fun u => match u with
    | ExtractionUnit.folder p => some p
    | ExtractionUnit.rootFiles => none)

theorem folder_paths_of_unit_list (s : ExtractionSession) :
    folder_paths_of (unit_list s) = sorted_folder_list s.selected_folders := by
  unfold folder_paths_of unit_list
  rw [List.filterMap_append]
  have h1 : ∀ l : List PathParts, (List.filterMap (fun u => match u with
      | ExtractionUnit.folder p => some p
      | ExtractionUnit.rootFiles => none)
      (l.map ExtractionUnit.folder)) = l := by
    intro l
    induction l with
    | nil => rfl
    | cons p ps ih => simp [List.filterMap_cons, ih]
  rw [h1]
  by_cases hr : s.include_root_files <;> simp [hr]

/-- Claim C8: units are executed in a fixed order — the folder units appear
sorted by path and are exactly the selected folders, and the root files-only
unit is present iff requested and only ever in the last position. -/
theorem units_fixed_order (s : ExtractionSession) :
    List.Sorted path_le_rel (folder_paths_of (unit_list s)) ∧
    (folder_paths_of (unit_list s)).Perm s.selected_folders ∧
    ((ExtractionUnit.rootFiles ∈ unit_list s) ↔ s.include_root_files = true) ∧
    (∀ i, ∀ h : i < (unit_list s).length,
      (unit_list s)[i] = ExtractionUnit.rootFiles → i + 1 = (unit_list s).length) := by
  refine ⟨?_, ?_, ?_, ?_⟩
  · rw [folder_paths_of_unit_list]
    exact List.sorted_insertionSort path_le_rel s.selected_folders
  · rw [folder_paths_of_unit_list]
    exact List.perm_insertionSort path_le_rel s.selected_folders
  · by_cases hr : s.include_root_files
    · have hlist : unit_list s
          = (sorted_folder_list s.selected_folders).map ExtractionUnit.folder
            ++ [ExtractionUnit.rootFiles] := by
        unfold unit_list
        rw [if_pos hr]
      rw [hlist, hr]
      simp
    · have hlist : unit_list s
          = (sorted_folder_list s.selected_folders).map ExtractionUnit.folder := by
        unfold unit_list
        rw [if_neg hr]
        exact List.append_nil _
      rw [hlist]
      simp only [List.mem_map]
      constructor
      · intro ⟨p, _, hp⟩
        exact absurd hp (by simp)
      · intro hcon
        exact absurd hcon hr
  · intro i h hroot
    by_cases hr : s.include_root_files
    · have hlist : unit_list s
          = (sorted_folder_list s.selected_folders).map ExtractionUnit.folder
            ++ [ExtractionUnit.rootFiles] := by
        unfold unit_list
        rw [if_pos hr]
      have hq : (unit_list s)[i]? = some ExtractionUnit.rootFiles := by
        rw [List.getElem?_eq_getElem h]
        exact congrArg some hroot
      rw [hlist] at hq
      rcases Nat.lt_or_ge i
          ((sorted_folder_list s.selected_folders).map ExtractionUnit.folder).length
        with hlt | hge
      · exfalso
        rw [List.getElem?_append_left hlt] at hq
        rw [List.getElem?_map] at hq
        cases hopt : (sorted_folder_list s.selected_folders)[i]? with
        | none => rw [hopt] at hq; simp at hq
        | some p => rw [hopt] at hq; simp at hq
      · have h2 : i < (unit_list s).length := h
        rw [hlist] at h2
        rw [hlist]
        simp only [List.length_append, List.length_cons, List.length_nil] at h2 ⊢
        omega
    · have hlist : unit_list s
          = (sorted_folder_list s.selected_folders).map ExtractionUnit.folder := by
        unfold unit_list
        rw [if_neg hr]
        exact List.append_nil _
      have hmem : ExtractionUnit.rootFiles ∈ unit_list s := by
        rw [← hroot]
        exact List.getElem_mem h
      rw [hlist] at hmem
      rcases List.mem_map.mp hmem with ⟨p, _, hp⟩
      exact absurd hp (by simp)

/-- Session used by the C8 witness: two folders selected out of order plus
the root unit. -/
def sessionW8 : ExtractionSession :=
  { selected_folders := [["b"], ["a"]], include_root_files := true }

/-- Witness for C8: in a three-unit batch the root unit sits in the last
position. -/
theorem units_fixed_order_witness : 2 + 1 = (unit_list sessionW8).length :=
  (units_fixed_order sessionW8).2.2.2 2 (by decide) (by decide)

/-! ## ExtractionPolicy and the folder walker

The walker lives in the repository's `file_handler` module, which is not
among the sources; only its call sites are (tui.py lines 788-796 and
835-842, main_logic.py lines 159 and 172).  The definitions below are
modelled from the spec (sections 3, 4.1 and 4.3) and marked so. -/

/-- Modelled from the spec: the per-run configuration of section 3,
missing from src because `file_handler` (which consumes it) is absent;
the field values passed by the TUI are the `ExtractionSession` fields. -/
structure ExtractionPolicy where
  excluded_dirs : List String
  excluded_filenames : List String
  allowed_extensions : List String
  allowed_filenames : List String
  exclude_large_files : Bool
  max_file_size_mb : ℚ

/-- ASCII lowercasing of a string, character by character, embedding
Python `str.lower()` on filenames. -/
def lowerStr (s : String) : String := String.mk (s.data.map Char.toLower)

/-- Number of whitespace-delimited tokens, embedding Python `str.split()`
with no arguments; the flag records whether a word is in progress. -/
def countWordsAux : List Char → Bool → ℕ
  | [], _ => 0
  | c :: cs, inWord =>
    if c.isWhitespace then countWordsAux cs false
    else (if inWord then 0 else 1) + countWordsAux cs true

def countWords (s : String) : ℕ := countWordsAux s.data false

/-- Embedding of Python `Path.suffix`: the substring from the last dot,
empty when there is no dot, when the dot is the first character, or when
the dot is the last character. -/
def path_suffix (name : String) : String :=
  let cs := name.data
  let after := (cs.reverse.takeWhile (fun c => c != '.')).reverse
  if after.length + 1 < cs.length ∧ 0 < after.length then
    String.mk ('.' :: after)
  else ""

/-- Modelled from the spec: a file at or above
`max_file_size_mb * 1,048,576` bytes is over the size threshold (spec
section 8 boundary property; the TUI labels the control "larger than or
equal (>=)", tui.py line 212). -/
def size_exceeds (mb : ℚ) (size : ℕ) : Bool := decide (mb * 1048576 ≤ (size : ℚ))

/-- Modelled from the spec: the extraction predicate of section 3 — a file
is extracted iff it is not name-excluded, its lower-cased extension is
allowed or its lower-cased basename is allowed, and it is not excluded by
size. -/
def file_qualifies (P : ExtractionPolicy) (name : String) (size : ℕ) : Bool :=
  !(P.excluded_filenames.contains name) &&
  (P.allowed_extensions.contains (lowerStr (path_suffix name))
    || P.allowed_filenames.contains (lowerStr name)) &&
  (!P.exclude_large_files || !(size_exceeds P.max_file_size_mb size))

/-- A filesystem tree: files carry their byte size and text content. -/
inductive FSEntry where
  | file (name : String) (size : ℕ) (content : String)
  | dir (name : String) (children : List FSEntry)

/-- Per-unit statistics produced by the walker (spec section 3,
`ExtractionResult`). -/
structure ExtractionResult where
  file_count : ℕ
  char_count : ℕ
  word_count : ℕ
deriving DecidableEq

def ExtractionResult.add (a b : ExtractionResult) : ExtractionResult :=
  { file_count := a.file_count + b.file_count
    char_count := a.char_count + b.char_count
    word_count := a.word_count + b.word_count }

mutual
/-- Modelled from the spec: the recursive walk of section 4.3 — a
directory whose name is in `excluded_dirs` is pruned with its entire
subtree; a qualifying file contributes its counts. -/
def walk_entry (P : ExtractionPolicy) : FSEntry → ExtractionResult
  | FSEntry.file name size content =>
    if file_qualifies P name size then
      { file_count := 1, char_count := content.length, word_count := countWords content }
    else { file_count := 0, char_count := 0, word_count := 0 }
  | FSEntry.dir name children =>
    if P.excluded_dirs.contains name then
      { file_count := 0, char_count := 0, word_count := 0 }
    else walk_entries P children

/-- Modelled from the spec: aggregation over a directory's entries. -/
def walk_entries (P : ExtractionPolicy) : List FSEntry → ExtractionResult
  | [] => { file_count := 0, char_count := 0, word_count := 0 }
  | e :: es => (walk_entry P e).add (walk_entries P es)
end

/-- Modelled from the spec: `file_handler.extract_code_from_folder` —
walking a folder unit visits the folder's entries recursively (the
selected folder itself was chosen by the user and is not name-filtered). -/
def extract_code_from_folder (P : ExtractionPolicy) : FSEntry → ExtractionResult
  | FSEntry.file _ _ _ => { file_count := 0, char_count := 0, word_count := 0 }
  | FSEntry.dir _ children => walk_entries P children

/-- The default policy: config.py sets with the TUI session defaults
(`exclude_large_files = False`, `max_file_size_mb = 1.0`). -/
def default_policy : ExtractionPolicy :=
  { excluded_dirs := EXCLUDED_DIRS
    excluded_filenames := EXCLUDED_FILENAMES
    allowed_extensions := ALLOWED_EXTENSIONS
    allowed_filenames := ALLOWED_FILENAMES
    exclude_large_files := false
    max_file_size_mb := 1 }

/-- Claim C6: the walk never descends into a directory whose name is in
`excluded_dirs` — such a directory contributes nothing whatever its
subtree holds — so a folder whose only qualifying file lies inside an
excluded directory yields `file_count = 0`. -/
theorem walker_prunes_excluded (P : ExtractionPolicy) (name : String)
    (children : List FSEntry) (h : P.excluded_dirs.contains name = true) :
    walk_entry P (FSEntry.dir name children)
      = { file_count := 0, char_count := 0, word_count := 0 } ∧
    (∀ root_name fname fsize fcontent, file_qualifies P fname fsize = true →
      (extract_code_from_folder P (FSEntry.dir root_name
        [FSEntry.dir name [FSEntry.file fname fsize fcontent]])).file_count = 0) := by
  have hgen : ∀ cs, walk_entry P (FSEntry.dir name cs)
      = { file_count := 0, char_count := 0, word_count := 0 } := by
    intro cs
    unfold walk_entry
    rw [if_pos h]
  refine ⟨hgen children, ?_⟩
  intro root_name fname fsize fcontent _
  show (walk_entries P [FSEntry.dir name [FSEntry.file fname fsize fcontent]]).file_count = 0
  unfold walk_entries
  rw [hgen [FSEntry.file fname fsize fcontent]]
  rfl

/-- Witness for C6: a qualifying Python file hidden inside `node_modules`
is not extracted. -/
theorem walker_prunes_excluded_witness :
    walk_entry default_policy (FSEntry.dir "node_modules"
        [FSEntry.file "a.py" 10 "hi"])
      = { file_count := 0, char_count := 0, word_count := 0 } ∧
    (extract_code_from_folder default_policy (FSEntry.dir "root"
        [FSEntry.dir "node_modules" [FSEntry.file "a.py" 10 "hi"]])).file_count = 0 :=
  ⟨(walker_prunes_excluded default_policy "node_modules"
      [FSEntry.file "a.py" 10 "hi"] (by decide)).1,
   (walker_prunes_excluded default_policy "node_modules"
      [FSEntry.file "a.py" 10 "hi"] (by decide)).2 "root" "a.py" 10 "hi" (by decide)⟩

/-- Policy with the 1 MB size exclusion switched on, as in claim C7. -/
def policy_1mb : ExtractionPolicy :=
  { default_policy with exclude_large_files := true }

/-- Claim C7: with `exclude_large_files = true` and `max_file_size_mb = 1`,
a file of exactly 1,048,576 bytes is excluded while a file of 1,048,575
bytes is included — the boundary is exclusive at
`max_file_size_mb * 1,048,576`. -/
theorem size_threshold_boundary :
    file_qualifies policy_1mb "a.txt" 1048576 = false ∧
    file_qualifies policy_1mb "a.txt" 1048575 = true := by
  have hat : size_exceeds (1:ℚ) 1048576 = true := by
    unfold size_exceeds
    rw [decide_eq_true_eq]
    norm_num
  have hunder : size_exceeds (1:ℚ) 1048575 = false := by
    unfold size_exceeds
    rw [decide_eq_false_iff_not]
    norm_num
  constructor
  · show file_qualifies policy_1mb "a.txt" 1048576 = false
    unfold file_qualifies
    have hP : policy_1mb.exclude_large_files = true := rfl
    have hmb : policy_1mb.max_file_size_mb = (1:ℚ) := rfl
    rw [hP, hmb, hat]
    simp
  · show file_qualifies policy_1mb "a.txt" 1048575 = true
    unfold file_qualifies
    have hP : policy_1mb.exclude_large_files = true := rfl
    have hmb : policy_1mb.max_file_size_mb = (1:ℚ) := rfl
    rw [hP, hmb, hunder]
    simp only [Bool.not_true, Bool.not_false, Bool.false_or, Bool.and_true]
    decide

/-! ## Output directory self-exclusion (main_logic.py lines 44-47)

`main` adds the output directory name to `config.EXCLUDED_DIRS` only when
the user passes `--output-dir`; nothing ever adds the default
`OUTPUT_DIR_NAME`, and the TUI session's `excluded_dirs` default
(tui.py lines 50-56) does not contain it either. -/

/-- Embedding of main_logic.py lines 44-47: the optional `--output-dir`
argument overrides the output name and is added to the exclusion set;
without the argument both keep their config.py defaults. -/
def apply_output_dir_arg : Option String → String × List String
  | none => (OUTPUT_DIR_NAME, EXCLUDED_DIRS)
  | some d => (d, if d ∈ EXCLUDED_DIRS then EXCLUDED_DIRS else EXCLUDED_DIRS ++ [d])

/-- Claim C9 fails on the code: in the default run (no `--output-dir`) the
output directory name "CODEBASE_EXTRACTS" is not a member of the excluded
directory set used for traversal, neither in the CLI configuration nor in
the TUI session defaults; only an explicit `--output-dir` override is
self-excluded. -/
theorem output_dir_not_self_excluded_by_default :
    EXCLUDED_DIRS.contains (apply_output_dir_arg none).1 = false ∧
    ((apply_output_dir_arg none).2.contains (apply_output_dir_arg none).1) = false ∧
    (default_session.excluded_dirs.contains default_session.output_dir_name) = false ∧
    ((apply_output_dir_arg (some "MY_EXTRACTS")).2.contains "MY_EXTRACTS") = true := by
  decide

/-! ## Folder selection from command-line arguments
(main_logic.py lines 110-114 and 156-166)

With `--select-folders`, `main` adds `root_path / p` for each argument
directly to `folders_to_process` — the canonicalization of lines 144-151
runs only in the interactive branch — and then walks
`sorted(list(folders_to_process))` one unit at a time. -/

/-- Set insertion preserving first-insertion order (Python `set.update`). -/
def set_insert (l : List PathParts) (p : PathParts) : List PathParts :=
  if p ∈ l then l else l ++ [p]

/-- Embedding of main_logic.py lines 113-114: the argument paths are
resolved against the root and added to the processing set with no
canonicalization. -/
def folders_from_args (root : PathParts) (select_folders : List PathParts) :
    List PathParts :=
  select_folders.foldl (fun acc p => set_insert acc (root ++ p)) []

def entry_name : FSEntry → String
  | FSEntry.file n _ _ => n
  | FSEntry.dir n _ => n

/-- Subtree of a filesystem tree at a relative path. -/
def subtree_at : PathParts → FSEntry → Option FSEntry
  | [], t => some t
  | _ :: _, FSEntry.file _ _ _ => none
  | n :: rest, FSEntry.dir _ children =>
    match children.find? (fun c => entry_name c == n) with
    | some c => subtree_at rest c
    | none => none

/-- Embedding of the unit loop of main_logic.py lines 156-163: each folder
in `sorted(list(folders_to_process))` is walked as its own unit and its
file count added to the run total (the walk itself is modelled from the
spec, see `extract_code_from_folder`). -/
def run_folder_units (P : ExtractionPolicy) (fs : FSEntry)
    (folders : List PathParts) : ℕ :=
  (sorted_folder_list folders).foldl (fun acc p =>
    match subtree_at p fs with
    | some t => acc + (extract_code_from_folder P t).file_count
    | none => acc) 0

/-- Tree used for claim C10: a single qualifying file at `a/b/x.py`. -/
def fs10 : FSEntry :=
  FSEntry.dir "" [FSEntry.dir "a" [FSEntry.dir "b"
    [FSEntry.file "x.py" 11 "hello world"]]]

/-- Claim C10: folder selections supplied via `--select-folders` skip the
descendant-dropping canonicalization — with arguments `a` and `a/b`, both
paths are walked as separate units and the single file under `a/b` is
counted twice (total 2), whereas walking `a` alone counts it once and the
interactive canonicalization would have kept only `a`. -/
theorem select_folders_args_bypass_canonicalization :
    sorted_folder_list (folders_from_args [] [["a"], ["a", "b"]])
      = [["a"], ["a", "b"]] ∧
    final_paths [["a"], ["a", "b"]] = [["a"]] ∧
    run_folder_units default_policy fs10 (folders_from_args [] [["a"], ["a", "b"]]) = 2 ∧
    run_folder_units default_policy fs10 [["a"]] = 1 := by
  refine ⟨?_, ?_, ?_, ?_⟩ <;> decide
